import Mathlib

/-!
# Verification of the inventory/chat core of `app.py`

Shallow embedding of the core of the repository's `src/app.py`:

* `parse_price`     — extraction of the BGN price from a price-text string
                      (Python regex `([\d\s,]+)\s*лв`, then `.replace(' ','')`,
                      `.replace(',','.')`, `float(...)`).
* `fetch_all_cars`  — the TTL-cached feed fetch (`CAR_CACHE`, `CACHE_TTL = 300`).
* `get_available_cars` — filter by model substring, rank by parsed price,
                      truncate to 2, with the three `except` clauses.
* `chat`            — the assistant-run polling loop (30-iteration ceiling,
                      tool dispatch, transcript appends).

Modelling conventions:

* Python floats are modelled as exact rationals; `float('inf')` is the `none`
  value of `PriceVal := Option ℚ` (ordered as the top element, matching the
  fact that `inf` sorts last and ties with itself).
* Python exceptions are modelled by `Except PyErr`; the three `except` clauses
  of `get_available_cars` correspond to the three `PyErr` constructors.
* Python dicts are modelled as insertion-ordered association lists
  (`Car := List (String × Val)`), so that key insertion (`car_copy['numeric_price'] = ...`),
  the dict comprehension dropping `'numeric_price'`, and `car.pop('numeric_price', None)`
  are all explicit operations.
* The character classes `\d` and `\s` of the Python regex are modelled over the
  character ranges that actually occur in the feed (ASCII digits; space, tab,
  CR, LF, FF, VT and NBSP for whitespace).  Python's `str.lower` is modelled by
  `Char.toLower` (ASCII case mapping; model names and filters are ASCII).
-/

/-- A Python float used as a ranking key: `none` is `float('inf')`,
`some q` a finite value (floats modelled as exact rationals). -/
abbrev PriceVal := Option ℚ

/-- Characters matched by Python's `\s` (ASCII whitespace plus NBSP;
Python additionally matches some rare Unicode spaces that never occur here). -/
def isPySpace (c : Char) : Bool :=
  c = ' ' || c = '\t' || c = '\n' || c = '\r' || c = '\x0b' || c = '\x0c' || c = '\xa0'

/-- Characters matched by the character class `[\d\s,]` of the price regex. -/
def isClassChar (c : Char) : Bool :=
  c.isDigit || isPySpace c || c = ','

/-- Does the list start with the BGN currency marker `лв`? -/
def startsLv : List Char → Bool
  | a :: b :: _ => a = 'л' && b = 'в'
  | _ => false

/-- `re.search(r'([\d\s,]+)\s*лв', s)`, returning `group(1)`.

Because `\s ⊆ [\d\s,]` and the group is greedy, a match starting at position
`p` exists iff the maximal run of `[\d\s,]`-characters starting at `p` is
nonempty and is immediately followed by the literal `лв`; `group(1)` is that
maximal run (backtracking the group can never make `\s*лв` succeed elsewhere,
since every character of the run fails to be `л`).  `re.search` returns the
leftmost such position. -/
def searchLv : List Char → Option (List Char)
  | [] => none
  | c :: rest =>
    let run := List.takeWhile isClassChar (c :: rest)
    if run.isEmpty = false && startsLv (List.dropWhile isClassChar (c :: rest)) then
      some run
    else
      searchLv rest

/-- Does `лв` occur as a (two-character) substring? -/
def hasLv : List Char → Bool
  | [] => false
  | [_] => false
  | a :: b :: t => (a = 'л' && b = 'в') || hasLv (b :: t)

/-- Strip `isPySpace`-characters from both ends (Python `str.strip()` /
the whitespace stripping performed by `float(...)` on its string argument). -/
def pyTrim (l : List Char) : List Char :=
  ((l.dropWhile isPySpace).reverse.dropWhile isPySpace).reverse

/-- Value of a list of ASCII digit characters, most significant first. -/
def natOfDigits (l : List Char) : ℕ :=
  l.foldl (fun n c => 10 * n + (c.toNat - 48)) 0

/-- Exact value of the decimal numeral `ip.fp`. -/
def decValue (ip fp : List Char) : ℚ :=
  mkRat (natOfDigits (ip ++ fp)) (10 ^ fp.length)

/-- Is the character an ASCII digit or a decimal point? -/
def digitOrDot (c : Char) : Bool :=
  c.isDigit || c = '.'

/-- Python `float(str)` restricted to the strings reachable from
`parse_price` (characters are digits, dots, or whitespace): strips
surrounding whitespace, then requires a nonempty all digit-or-dot body with
at most one dot and at least one digit; `none` models a `ValueError`. -/
def pyFloat (l : List Char) : Option ℚ :=
  if (pyTrim l).isEmpty then none
  else if (pyTrim l).all digitOrDot && (pyTrim l).count '.' ≤ 1
      && (pyTrim l).any (·.isDigit) then
    some (decValue ((pyTrim l).takeWhile (· ≠ '.')) (((pyTrim l).dropWhile (· ≠ '.')).drop 1))
  else none

/-- The cleaning applied to the matched group:
`.replace(' ', '').replace(',', '.')` (only `U+0020` is removed; other
whitespace captured by `\s` survives and later makes `float` fail). -/
def cleanRun (run : List Char) : List Char :=
  (run.filter (fun c => c ≠ ' ')).map (fun c => if c = ',' then '.' else c)

/-- `parse_price` of `app.py` (lines 34–51): extract the BGN amount, or
`float('inf')` (`none`) when the string is falsy, the regex does not match,
or `float` raises. -/
def parse_price (l : List Char) : PriceVal :=
  if l.isEmpty then none
  else
    match searchLv l with
    | none => none
    | some run => pyFloat (cleanRun run)

/-! ## Data model: listings as Python dicts, the feed cache, exceptions -/

/-- A Python dict value occurring in a listing: a string, or a float
ranking key (`numeric_price`). -/
inductive Val where
  | vs : String → Val
  | vq : PriceVal → Val
deriving DecidableEq, Repr

/-- A listing dict (`car_data` in `app.py`): an insertion-ordered
association list, mirroring Python dict insertion/update/removal. -/
abbrev Car := List (String × Val)

/-- Python `d[k]` as a total lookup (first binding; Python keys are unique). -/
def dget (c : Car) (k : String) : Option Val :=
  match c with
  | [] => none
  | (k₁, v) :: t => if k₁ = k then some v else dget t k

/-- Python `d[k] = v`: replace the first binding in place, else append
(Python dicts keep the original insertion position on update). -/
def dset (c : Car) (k : String) (v : Val) : Car :=
  match c with
  | [] => [(k, v)]
  | (k₁, v₁) :: t => if k₁ = k then (k, v) :: t else (k₁, v₁) :: dset t k v

/-- The dict comprehension `{k: v for k, v in car.items() if k != 'numeric_price'}`. -/
def stripNP (c : Car) : Car :=
  c.filter (fun p => p.1 ≠ "numeric_price")

/-- The Python exceptions distinguished by `get_available_cars`:
`requests.RequestException`, `xml.etree.ElementTree.ParseError`, and
every other `Exception` (KeyError, AttributeError, TypeError, ...). -/
inductive PyErr where
  | net
  | xml
  | other
deriving DecidableEq, Repr

/-- One `<item>` of the XML feed, as far as `fetch_all_cars` reads it:
each field is the text of the corresponding `g:`-element, `none` when the
element is absent. -/
structure Item where
  availability : Option String
  title : Option String
  description : Option String
  link : Option String
  image_url : Option String
deriving DecidableEq, Repr

/-- Python `str.strip()`. -/
def pyStrip (s : String) : String :=
  ⟨pyTrim s.data⟩

/-- The listing dict built at lines 83–94 of `app.py` for one item. -/
def itemCar (it : Item) : Car :=
  [("model", .vs (match it.title with | some t => pyStrip t | none => "N/A")),
   ("price", .vs (match it.description with | some d => pyStrip d | none => "N/A")),
   ("link", .vs (it.link.getD "#")),
   ("image_url", .vs (it.image_url.getD ""))]

/-- Lines 74–94: keep exactly the items whose `g:availability` text equals
`'in stock'`, in feed order. -/
def buildCars (its : List Item) : List Car :=
  (its.filter (fun it => it.availability == some "in stock")).map itemCar

/-- The outcome of the external part of one upstream fetch attempt
(`requests.get` + `raise_for_status` + `ET.fromstring`): either the parsed
items, or the exception raised. -/
inductive Upstream where
  | items : List Item → Upstream
  | netError : Upstream
  | xmlError : Upstream
  | otherError : Upstream
deriving DecidableEq, Repr

/-- The module-global `CAR_CACHE` dict: `{"timestamp": ..., "cars": [...]}`
(time values modelled as integers: `time.time()` at whole-time-unit
granularity; no claim depends on fractional times). -/
structure CacheState where
  timestamp : ℤ
  cars : List Car
deriving DecidableEq, Repr

/-- `fetch_all_cars` of `app.py` (lines 54–99), with the cache threaded
explicitly.  Returns the result (or exception), the new cache state, and the
number of upstream fetch attempts performed (0 or 1).  The cache is served
only when the cached list is truthy, i.e. non-empty, and fresh
(`now - timestamp < 300`). -/
def fetch_all_cars (st : CacheState) (now : ℤ) (up : Upstream) :
    Except PyErr (List Car) × CacheState × ℕ :=
  if st.cars ≠ [] ∧ now - st.timestamp < 300 then
    (.ok st.cars, st, 0)
  else
    match up with
    | .netError => (.error .net, st, 1)
    | .xmlError => (.error .xml, st, 1)
    | .otherError => (.error .other, st, 1)
    | .items its =>
      let cars := buildCars its
      (.ok cars, ⟨now, cars⟩, 1)

/-! ## The inventory query engine (`get_available_cars`) -/

/-- The result dict `{"summary": ..., "cars": [...]}`. -/
structure GResult where
  summary : String
  cars : List Car
deriving DecidableEq, Repr

/-- Python truthiness of the `model_filter` argument:
`None` and `''` are falsy, so `if model_filter:` selects exactly the
non-empty strings. -/
def truthyFilter : Option String → Option String
  | some f => if f = "" then none else some f
  | none => none

/-- Python `str.lower()` (ASCII case mapping; the feed's model names and
the tool's filters are ASCII). -/
def pyLower (l : List Char) : List Char :=
  l.map Char.toLower

/-- Python substring test `needle in hay`. -/
def listContains (hay needle : List Char) : Bool :=
  match hay with
  | [] => needle.isEmpty
  | c :: t => needle.isPrefixOf (c :: t) || listContains t needle

/-- The model field of a listing, as used by the filter comprehension
(defaulting to `""` on the paths where Python would instead raise;
those paths are diverted to `.error` before this default matters). -/
def modelStr (c : Car) : String :=
  match dget c "model" with
  | some (.vs s) => s
  | _ => ""

/-- `model_filter.lower() in car['model'].lower()`. -/
def matchesFilter (f : String) (c : Car) : Bool :=
  listContains (pyLower (modelStr c).data) (pyLower f.data)

/-- `car['model']` followed by `.lower()`: raises (modelled by `.error .other`)
when the key is missing (`KeyError`) or the value is not a string
(`AttributeError`). -/
def getModel (c : Car) : Except PyErr String :=
  match dget c "model" with
  | some (.vs s) => .ok s
  | some (.vq _) => .error .other
  | none => .error .other

/-- The filtering list comprehension at line 113, with Python's
exception behaviour made explicit. -/
def filterCarsM (f : String) : List Car → Except PyErr (List Car)
  | [] => .ok []
  | c :: t =>
    match getModel c with
    | .error e => .error e
    | .ok m =>
      match filterCarsM f t with
      | .error e => .error e
      | .ok rest =>
        if listContains (pyLower m.data) (pyLower f.data) then
          .ok (c :: rest)
        else
          .ok rest

/-- `parse_price(car_copy['price'])`, including Python's behaviour on a
missing key (`KeyError`) and on a non-string price value: a falsy float
(`0.0`) returns `inf` via `if not price_str`, every other float reaches
`re.search` and raises `TypeError`. -/
def parsePriceOfCar (c : Car) : Except PyErr PriceVal :=
  match dget c "price" with
  | some (.vs s) => .ok (parse_price s.data)
  | some (.vq (some q)) => if q = 0 then .ok none else .error .other
  | some (.vq none) => .error .other
  | none => .error .other

/-- The ranking key used by the pure statements: the parsed price of the
listing's `price` field (`none` = `inf` on every path on which the code
itself would not raise). -/
def priceOf (c : Car) : PriceVal :=
  match dget c "price" with
  | some (.vs s) => parse_price s.data
  | _ => none

/-- The copy-and-annotate loop at lines 119–124: each listing is copied
(`car.copy()`) and the copy gets `numeric_price` set to the parsed price. -/
def processCarsM : List Car → Except PyErr (List Car)
  | [] => .ok []
  | c :: t =>
    match parsePriceOfCar c with
    | .error e => .error e
    | .ok p =>
      match processCarsM t with
      | .error e => .error e
      | .ok rest => .ok (dset c "numeric_price" (.vq p) :: rest)

/-- The sort key `x['numeric_price']` (always a `vq` value on the lists the
code actually sorts, since `dset` has just written it). -/
def keyOf (c : Car) : PriceVal :=
  match dget c "numeric_price" with
  | some (.vq p) => p
  | _ => none

/-- Comparison of ranking keys: `none` (`inf`) is the top element; all
`inf`s compare equal, as Python floats do. -/
def pvLE : PriceVal → PriceVal → Bool
  | _, none => true
  | none, some _ => false
  | some a, some b => a ≤ b

/-- Stable insertion of a listing into a list sorted by `keyOf`:
the inserted (earlier) element goes before every element of equal key. -/
def insertCar (x : Car) : List Car → List Car
  | [] => [x]
  | y :: t => if pvLE (keyOf x) (keyOf y) then x :: y :: t else y :: insertCar x t

/-- `sorted(processed_cars, key=lambda x: x['numeric_price'])`: Python's
sort is stable and ascending, which determines its output uniquely; it is
realised here as a stable insertion sort. -/
def sortCars : List Car → List Car
  | [] => []
  | x :: t => insertCar x (sortCars t)

def emptyFilterMsg (f : String) : String :=
  "За съжаление, в момента няма налични автомобили, отговарящи на вашето търсене за '" ++ f ++ "'."

def emptyMsg : String :=
  "За съжаление, в момента няма налични автомобили."

def someFilterMsg (f : String) : String :=
  "Ето налични автомобили " ++ f ++ ":"

def someMsg : String :=
  "Ето налични автомобили:"

/-- Lines 130–133: take the two cheapest annotated listings and strip
`numeric_price` from each via the dict comprehension. -/
def gacFinal (processed : List Car) : List Car :=
  ((sortCars processed).take 2).map stripNP

/-- The empty-result summary (lines 138–141), parameterised by the filter's
truthiness. -/
def gacSummaryEmpty (mf : Option String) : String :=
  match truthyFilter mf with
  | some f => emptyFilterMsg f
  | none => emptyMsg

/-- The non-empty-result summary (lines 146–149). -/
def gacSummarySome (mf : Option String) : String :=
  match truthyFilter mf with
  | some f => someFilterMsg f
  | none => someMsg

/-- Lines 118–157, after the model filtering: annotate copies with the
parsed price, sort, truncate, strip the ranking key (comprehension at
130–133, redundant `pop` at 152–153), and choose the summary. -/
def gacAfterFilter (mf : Option String) (filtered : List Car) : Except PyErr GResult :=
  match processCarsM filtered with
  | .error e => .error e
  | .ok processed =>
    if (gacFinal processed).isEmpty then
      .ok { summary := gacSummaryEmpty mf, cars := [] }
    else
      .ok { summary := gacSummarySome mf,
            cars := (gacFinal processed).map (List.eraseP (fun p => p.1 == "numeric_price")) }

/-- The body of the `try` block of `get_available_cars` after the fetch
(lines 110–157): filter by model when the filter is truthy, then rank and
truncate. -/
def gac_core (mf : Option String) (cars : List Car) : Except PyErr GResult :=
  match (match truthyFilter mf with
         | some f => filterCarsM f cars
         | none => Except.ok cars) with
  | .error e => .error e
  | .ok filtered => gacAfterFilter mf filtered

/-- The user-facing summary of each `except` clause (lines 159–175). -/
def errMsg : PyErr → String
  | .net => "Възникна грешка при свързването с уебсайта на Peugeot."
  | .xml => "Възникна грешка при обработката на данните за автомобили."
  | .other => "Възникна грешка при извличането на данните за автомобили."

/-- `get_available_cars` of `app.py` (lines 102–175): the full function,
with the cache threaded and the upstream fetch attempt counted. -/
def get_available_cars (mf : Option String) (st : CacheState) (now : ℤ) (up : Upstream) :
    GResult × CacheState × ℕ :=
  match fetch_all_cars st now up with
  | (.ok cars, st₁, n) =>
    match gac_core mf cars with
    | .ok r => (r, st₁, n)
    | .error e => ({ summary := errMsg e, cars := [] }, st₁, n)
  | (.error e, st₁, n) => ({ summary := errMsg e, cars := [] }, st₁, n)

/-- The snapshot served by a given call (the value of `all_cars`), or `[]`
on the failing paths. -/
def servedCars (st : CacheState) (now : ℤ) (up : Upstream) : List Car :=
  match (fetch_all_cars st now up).1 with
  | .ok cars => cars
  | .error _ => []

/-- The per-query annotation performed on a copy of each retained listing:
`car_copy = car.copy()` followed by `car_copy['numeric_price'] = parse_price(...)`. -/
def annotate (c : Car) : Car :=
  dset c "numeric_price" (.vq (priceOf c))

/-- The model filtering, as a pure function of the snapshot (the reference
point for the stability statement: the retained listings in feed order). -/
def feedFiltered (mf : Option String) (cars : List Car) : List Car :=
  match truthyFilter mf with
  | some f => cars.filter (matchesFilter f)
  | none => cars

/-! ## The assistant-run orchestration (`chat`, lines 283–423) -/

/-- The decoded JSON argument payload of a tool call
(`json.loads(tool_call.function.arguments)` + `arguments.get('model_filter')`):
`ok none` models a payload whose `model_filter` field is missing or `null`,
`ok (some f)` a string field, and `malformed` a payload on which `json.loads`
(or the subsequent `.get` on a non-object) raises. -/
inductive ToolArgs where
  | malformed : ToolArgs
  | ok : Option String → ToolArgs
deriving DecidableEq, Repr

/-- One pending tool call of a `requires_action` run. -/
structure ToolCall where
  id : String
  fname : String
  args : ToolArgs
deriving DecidableEq, Repr

/-- What one `runs.retrieve` observes: the run status string and, when the
status is `requires_action`, the pending tool calls. -/
structure RunView where
  status : String
  toolCalls : List ToolCall
deriving Repr

/-- The external world of one `chat` turn: the status of the freshly created
run, the run view returned by the `i`-th `runs.retrieve`, the text of the
most recent assistant message (used on completion), `run.last_error.message`
(used on failure), the `CAR_CACHE` state at the start of the turn, and the
`(time.time(), upstream)` pair consumed by the `k`-th inventory call. -/
structure ChatEnv where
  initStatus : String
  retrieve : ℕ → RunView
  finalText : String
  lastError : Option String
  cache0 : CacheState
  invEnv : ℕ → ℤ × Upstream

/-- The orchestrator's mutable per-turn state: `car_data_result`, the cache,
and counters for inventory-engine calls, `submit_tool_outputs` batches, and
loop iterations. -/
structure LoopState where
  carData : Option GResult
  cache : CacheState
  gacCalls : ℕ
  submits : ℕ
  iter : ℕ
deriving Repr

/-- `run.status in ['queued', 'in_progress', 'requires_action']`. -/
def nonterminal (s : String) : Bool :=
  s == "queued" || s == "in_progress" || s == "requires_action"

/-- The `for tool_call in ...tool_calls` dispatch loop (lines 352–364):
matching calls decode their arguments (raising on a malformed payload) and
invoke `get_available_cars`; `car_data_result` keeps the last result.
An error carries the state reached before the raise. -/
def dispatchCalls (env : ChatEnv) :
    List ToolCall → LoopState → Except (PyErr × LoopState) LoopState
  | [], st => .ok st
  | tc :: rest, st =>
    if tc.fname == "get_available_cars" then
      match tc.args with
      | .malformed => .error (.other, st)
      | .ok mf =>
        let p := env.invEnv st.gacCalls
        let g := get_available_cars mf st.cache p.1 p.2
        dispatchCalls env rest
          { st with carData := some g.1, cache := g.2.1, gacCalls := st.gacCalls + 1 }
    else
      dispatchCalls env rest st

/-- The polling loop (lines 344–375).  `fuel` is `30 - iteration`, kept in
lock-step with `st.iter` so that the guard `iteration < max_iterations` is
exactly `fuel > 0`; each pass re-fetches the run, dispatches tool calls and
submits one batch when the status is `requires_action`, and increments the
iteration counter. -/
def pollLoop (env : ChatEnv) :
    ℕ → String → LoopState → Except (PyErr × LoopState) (String × LoopState)
  | 0, status, st => .ok (status, st)
  | fuel + 1, status, st =>
    if nonterminal status then
      let rv := env.retrieve st.iter
      match (if rv.status == "requires_action" then
               (dispatchCalls env rv.toolCalls st).map
                 (fun s => { s with submits := s.submits + 1 })
             else .ok st) with
      | .error e => .error e
      | .ok st₁ => pollLoop env fuel rv.status { st₁ with iter := st₁.iter + 1 }
    else
      .ok (status, st)

/-- `f"Грешка: Обработката спря със статус '{run.status}' след {iteration} итерации."` -/
def stalledMsg (s : String) (n : ℕ) : String :=
  "Грешка: Обработката спря със статус '" ++ s ++ "' след " ++ toString n ++ " итерации."

/-- `f"Грешка: Обработката неуспешна. Причина: {...}"` (line 410). -/
def failedMsg (lastError : Option String) : String :=
  "Грешка: Обработката неуспешна. Причина: " ++ lastError.getD "Неизвестна грешка"

/-- The body of the `except` clause at lines 419–423 (the `{e}` suffix is
the Python exception text, left abstract). -/
def criticalMsg : String :=
  "Възникна критична грешка на сървъра: "

/-- The observable outcome of one `chat` turn: the `response` JSON field,
the number of user-message rows and the list of assistant-message rows
inserted into `chat_messages`, whether the 500 error path was taken, the
`cars` payload, and the orchestration counters. -/
structure ChatResult where
  response : String
  userAppends : ℕ
  assistantAppends : List String
  isError500 : Bool
  carsPayload : Option (List Car)
  gacCalls : ℕ
  submits : ℕ
deriving Repr

/-- `chat` of `app.py` (lines 283–423), restricted to its core observable
behaviour: the user message row is inserted once (line 301), the run is
polled to an outcome, and the outcome decides the response text, the single
optional assistant row (line 390), and the optional `cars` payload.  On
`completed`, a non-empty tool result replaces the raw assistant text by the
inventory summary (lines 386–387). -/
def chat (env : ChatEnv) : ChatResult :=
  match pollLoop env 30 env.initStatus
      { carData := none, cache := env.cache0, gacCalls := 0, submits := 0, iter := 0 } with
  | .error (_, st) =>
    { response := criticalMsg, userAppends := 1, assistantAppends := [],
      isError500 := true, carsPayload := none,
      gacCalls := st.gacCalls, submits := st.submits }
  | .ok (status, st) =>
    if status == "completed" then
      let responseText :=
        match st.carData with
        | some r => if r.cars.isEmpty then env.finalText else r.summary
        | none => env.finalText
      { response := responseText, userAppends := 1, assistantAppends := [responseText],
        isError500 := false,
        carsPayload :=
          match st.carData with
          | some r => if r.cars.isEmpty then none else some r.cars
          | none => none,
        gacCalls := st.gacCalls, submits := st.submits }
    else if status == "failed" then
      { response := failedMsg env.lastError, userAppends := 1, assistantAppends := [],
        isError500 := false, carsPayload := none,
        gacCalls := st.gacCalls, submits := st.submits }
    else
      { response := stalledMsg status st.iter, userAppends := 1, assistantAppends := [],
        isError500 := false, carsPayload := none,
        gacCalls := st.gacCalls, submits := st.submits }

/-! ## Auxiliary definitions used by the statements and witnesses -/

/-- The exception (if any) raised inside the `try` block of
`get_available_cars` for the given inputs. -/
def pipelineExc (mf : Option String) (st : CacheState) (now : ℤ) (up : Upstream) :
    Option PyErr :=
  match (fetch_all_cars st now up).1 with
  | .error e => some e
  | .ok cars =>
    match gac_core mf cars with
    | .error e => some e
    | .ok _ => none

/-- A chat environment whose run requests exactly one inventory tool call
(with the given argument payload) and then completes; the upstream feed
always serves `its`. -/
def oneCallEnv (a : ToolArgs) (its : List Item) (ftext : String) : ChatEnv :=
  { initStatus := "queued"
    retrieve := fun i =>
      if i = 0 then ⟨"requires_action", [⟨"call_1", "get_available_cars", a⟩]⟩
      else ⟨"completed", []⟩
    finalText := ftext
    lastError := none
    cache0 := ⟨0, []⟩
    invEnv := fun _ => (0, .items its) }

/-- A feed item that is in stock (used by concrete witnesses). -/
def demoItem₁ : Item :=
  ⟨some "in stock", some "Peugeot 3008", some "35 858,96 € / 70 134,03 лв.", some "u1", some "p1"⟩

/-- A cheaper in-stock item (used by concrete witnesses). -/
def demoItem₂ : Item :=
  ⟨some "in stock", some "Peugeot 208 GT", some "23 007,67 € / 45 000,00 лв.", some "u2", some "p2"⟩

/-- A mid-priced in-stock item (used by concrete witnesses). -/
def demoItem₃ : Item :=
  ⟨some "in stock", some "Peugeot 208", some "25 564,08 € / 50 000,00 лв.", some "u3", some "p3"⟩

/-- A chat environment that never leaves `in_progress` (used by the stall
witness). -/
def stallEnv : ChatEnv :=
  { initStatus := "queued"
    retrieve := fun _ => ⟨"in_progress", []⟩
    finalText := "raw"
    lastError := none
    cache0 := ⟨0, []⟩
    invEnv := fun _ => (0, .netError) }

/-! ## General list, character and regex lemmas -/

theorem takeWhile_all_append (p : Char → Bool) (tok : List Char) (x : Char) (post : List Char)
    (htok : ∀ c ∈ tok, p c = true) (hx : p x = false) :
    (tok ++ x :: post).takeWhile p = tok ∧ (tok ++ x :: post).dropWhile p = x :: post := by
  induction tok with
  | nil => simp [List.takeWhile, List.dropWhile, hx]
  | cons c t ih =>
    have hc : p c = true := htok c (List.mem_cons_self c t)
    have ht := ih (fun d hd => htok d (List.mem_cons_of_mem c hd))
    simp [List.takeWhile_cons, List.dropWhile_cons, hc, ht.1, ht.2]

theorem searchLv_at_run (tok post : List Char) (hne : tok ≠ [])
    (htok : ∀ c ∈ tok, isClassChar c = true) :
    searchLv (tok ++ 'л' :: 'в' :: post) = some tok := by
  have h := takeWhile_all_append isClassChar tok 'л' ('в' :: post) htok (by decide)
  cases tok with
  | nil => exact absurd rfl hne
  | cons c t =>
    rw [List.cons_append] at h ⊢
    simp only [searchLv]
    simp only [h.1, h.2]
    simp [startsLv]

theorem hasLv_append_false (l₁ l₂ : List Char) (h : hasLv (l₁ ++ l₂) = false) :
    hasLv l₂ = false := by
  induction l₁ with
  | nil => exact h
  | cons c t ih =>
    apply ih
    cases hr : t ++ l₂ with
    | nil => rfl
    | cons b r =>
      rw [List.cons_append, hr] at h
      rw [hasLv] at h
      exact (Bool.or_eq_false_iff.mp h).2

theorem dropWhile_ne_nil_of_last (p : Char → Bool) (pre' : List Char) (c : Char)
    (hc : p c = false) : (pre' ++ [c]).dropWhile p ≠ [] := by
  intro h
  have hall : (pre' ++ [c]).takeWhile p = pre' ++ [c] := by
    have := List.takeWhile_append_dropWhile (p := p) (l := pre' ++ [c])
    rw [h, List.append_nil] at this
    exact this
  have : p c = true := by
    have hmem : c ∈ (pre' ++ [c]).takeWhile p := by
      rw [hall]
      exact List.mem_append_right _ (List.mem_singleton_self c)
    exact List.mem_takeWhile_imp hmem
  rw [hc] at this
  exact Bool.false_ne_true this

theorem dropWhile_append_ne_nil (p : Char → Bool) (l₁ l₂ : List Char)
    (h : l₁.dropWhile p ≠ []) :
    (l₁ ++ l₂).dropWhile p = l₁.dropWhile p ++ l₂ := by
  induction l₁ with
  | nil => exact absurd rfl h
  | cons c t ih =>
    by_cases hc : p c = true
    · rw [List.cons_append, List.dropWhile_cons_of_pos hc, List.dropWhile_cons_of_pos hc]
      rw [List.dropWhile_cons_of_pos hc] at h
      exact ih h
    · have hc' : p c = false := by
        cases hpc : p c
        · rfl
        · exact absurd hpc hc
      rw [List.cons_append, List.dropWhile_cons_of_neg (by simp [hc']),
        List.dropWhile_cons_of_neg (by simp [hc']), List.cons_append]

theorem hasLv_dropWhile_false (p : Char → Bool) (l : List Char) (h : hasLv l = false) :
    hasLv (l.dropWhile p) = false := by
  refine hasLv_append_false (l.takeWhile p) _ ?_
  rw [List.takeWhile_append_dropWhile]
  exact h

theorem searchLv_pre (pre tok post : List Char)
    (hpre_lv : hasLv pre = false)
    (hlast : pre = [] ∨ ∃ p₂ d, pre = p₂ ++ [d] ∧ isClassChar d = false)
    (hne : tok ≠ []) (htok : ∀ c ∈ tok, isClassChar c = true) :
    searchLv (pre ++ (tok ++ 'л' :: 'в' :: post)) = some tok := by
  induction pre with
  | nil => simpa using searchLv_at_run tok post hne htok
  | cons c pre' ih =>
    rcases hlast with h | ⟨p₀, d, heq, hd⟩
    · exact absurd h (by simp)
    · have hplv : hasLv pre' = false := hasLv_append_false [c] pre' hpre_lv
      have hlast' : pre' = [] ∨ ∃ p₂ e, pre' = p₂ ++ [e] ∧ isClassChar e = false := by
        cases p₀ with
        | nil =>
          injection heq with h1 h2
          exact Or.inl h2
        | cons e p₂ =>
          rw [List.cons_append] at heq
          injection heq with h1 h2
          exact Or.inr ⟨p₂, d, h2, hd⟩
      rw [List.cons_append]
      simp only [searchLv]
      by_cases hc : isClassChar c = true
      · -- the head is a class character; the run ends inside `pre` (its last
        -- character is not a class character) and is not followed by `лв`
        -- (no `лв` occurs in `pre`), so the scan moves on
        rcases hlast' with rfl | ⟨p₂, e, rfl, he⟩
        · cases p₀ with
          | nil =>
            injection heq with h1 h2
            rw [h1] at hc
            rw [hc] at hd
            exact absurd hd (by simp)
          | cons f p₂ =>
            rw [List.cons_append] at heq
            injection heq with h1 h2
            exact absurd h2.symm (by simp)
        · have hdp_ne : (c :: (p₂ ++ [e])).dropWhile isClassChar ≠ [] := by
            rw [← List.cons_append]
            exact dropWhile_ne_nil_of_last isClassChar (c :: p₂) e he
          have hsplit : (c :: (p₂ ++ [e] ++ (tok ++ 'л' :: 'в' :: post))).dropWhile isClassChar
              = (c :: (p₂ ++ [e])).dropWhile isClassChar ++ (tok ++ 'л' :: 'в' :: post) := by
            rw [← List.cons_append]
            exact dropWhile_append_ne_nil isClassChar (c :: (p₂ ++ [e])) _ hdp_ne
          have hdlv : hasLv ((c :: (p₂ ++ [e])).dropWhile isClassChar) = false :=
            hasLv_dropWhile_false _ _ hpre_lv
          have hstart : startsLv
              ((c :: (p₂ ++ [e] ++ (tok ++ 'л' :: 'в' :: post))).dropWhile isClassChar) = false := by
            rw [hsplit]
            cases hdp : (c :: (p₂ ++ [e])).dropWhile isClassChar with
            | nil => exact absurd hdp hdp_ne
            | cons d₀ dp =>
              rw [hdp] at hdlv
              cases dp with
              | nil =>
                cases tok with
                | nil => exact absurd rfl hne
                | cons t₀ t' =>
                  have ht₀ : isClassChar t₀ = true := htok t₀ (List.mem_cons_self _ _)
                  have htne : t₀ ≠ 'в' := by
                    intro hT
                    rw [hT] at ht₀
                    exact absurd ht₀ (by decide)
                  simp [startsLv, htne]
              | cons d₁ dp' =>
                rw [hasLv] at hdlv
                have h₀ := (Bool.or_eq_false_iff.mp hdlv).1
                simp only [List.cons_append, startsLv]
                exact h₀
          rw [hstart, Bool.and_false]
          simp only [Bool.false_eq_true, if_false]
          exact ih hplv (Or.inr ⟨p₂, e, rfl, he⟩)
      · -- the head is not a class character: the run here is empty
        have hc' : isClassChar c = false := by
          cases hcc : isClassChar c
          · rfl
          · exact absurd hcc hc
        rw [List.takeWhile_cons_of_neg (by simp [hc'])]
        simp only [List.isEmpty_nil, Bool.true_eq_false, Bool.false_and,
          Bool.false_eq_true, if_false]
        exact ih hplv hlast'

theorem digit_not_pySpace (c : Char) (h : c.isDigit = true) : isPySpace c = false := by
  cases hs : isPySpace c
  · rfl
  · exfalso
    simp only [isPySpace, Bool.or_eq_true, decide_eq_true_eq] at hs
    rcases hs with ((((((rfl | rfl) | rfl) | rfl) | rfl) | rfl) | rfl) <;>
      exact absurd h (by decide)

theorem digit_ne_comma (c : Char) (h : c.isDigit = true) : c ≠ ',' := by
  intro hEq
  rw [hEq] at h
  exact absurd h (by decide)

theorem digit_ne_dot (c : Char) (h : c.isDigit = true) : c ≠ '.' := by
  intro hEq
  rw [hEq] at h
  exact absurd h (by decide)

theorem mapComma_digits (d : List Char) (hd : ∀ c ∈ d, c.isDigit = true) :
    d.map (fun c => if c = ',' then '.' else c) = d := by
  induction d with
  | nil => rfl
  | cons c t ih =>
    rw [List.map_cons, if_neg (digit_ne_comma c (hd c (List.mem_cons_self c t))),
      ih (fun x hx => hd x (List.mem_cons_of_mem c hx))]

theorem dropWhile_eq_self_of_false (p : Char → Bool) (l : List Char)
    (h : ∀ c ∈ l, p c = false) : l.dropWhile p = l := by
  cases l with
  | nil => rfl
  | cons c t =>
    rw [List.dropWhile_cons_of_neg (by simp [h c (List.mem_cons_self c t)])]

theorem pyTrim_eq_self (l : List Char) (h : ∀ c ∈ l, isPySpace c = false) :
    pyTrim l = l := by
  unfold pyTrim
  rw [dropWhile_eq_self_of_false _ _ h]
  rw [dropWhile_eq_self_of_false _ _ (fun c hc => h c (List.mem_reverse.mp hc))]
  exact List.reverse_reverse l

theorem pyFloat_decimal (d₁ d₂ : List Char)
    (hd₁ : ∀ c ∈ d₁, c.isDigit = true) (hd₂ : ∀ c ∈ d₂, c.isDigit = true)
    (hdig : d₁ ++ d₂ ≠ []) :
    pyFloat (d₁ ++ '.' :: d₂) = some (decValue d₁ d₂) := by
  have hnospace : ∀ c ∈ d₁ ++ '.' :: d₂, isPySpace c = false := by
    intro c hc
    rcases List.mem_append.mp hc with hc | hc
    · exact digit_not_pySpace c (hd₁ c hc)
    · rcases List.mem_cons.mp hc with rfl | hc
      · decide
      · exact digit_not_pySpace c (hd₂ c hc)
  have htrim : pyTrim (d₁ ++ '.' :: d₂) = d₁ ++ '.' :: d₂ := pyTrim_eq_self _ hnospace
  have hE : (d₁ ++ '.' :: d₂).isEmpty = false := by
    cases hl : d₁ ++ '.' :: d₂
    · exact absurd hl (by simp)
    · rfl
  have hall : (d₁ ++ '.' :: d₂).all digitOrDot = true := by
    rw [List.all_eq_true]
    intro c hc
    rcases List.mem_append.mp hc with hc | hc
    · simp [digitOrDot, hd₁ c hc]
    · rcases List.mem_cons.mp hc with rfl | hc
      · decide
      · simp [digitOrDot, hd₂ c hc]
  have hcount : (d₁ ++ '.' :: d₂).count '.' = 1 := by
    rw [List.count_append, List.count_cons_self]
    rw [List.count_eq_zero.mpr (fun hmem => absurd rfl (digit_ne_dot '.' (hd₁ '.' hmem)))]
    rw [List.count_eq_zero.mpr (fun hmem => absurd rfl (digit_ne_dot '.' (hd₂ '.' hmem)))]
  have hany : (d₁ ++ '.' :: d₂).any (·.isDigit) = true := by
    rw [List.any_eq_true]
    cases hd : d₁ with
    | nil =>
      cases hdd : d₂ with
      | nil => rw [hd, hdd] at hdig; exact absurd rfl hdig
      | cons c t =>
        exact ⟨c, by simp [hdd], hd₂ c (by simp [hdd])⟩
    | cons c t =>
      exact ⟨c, by simp [hd], hd₁ c (by simp [hd])⟩
  have hsplit := takeWhile_all_append (fun c => decide (c ≠ '.')) d₁ '.' d₂
    (fun c hc => by simp [digit_ne_dot c (hd₁ c hc)]) (by decide)
  unfold pyFloat
  rw [htrim, hE]
  simp only [Bool.false_eq_true, if_false]
  rw [hall, hcount, hany, hsplit.1, hsplit.2]
  simp


/-! ## Dict, ranking and pipeline lemmas -/

theorem pvLE_refl (a : PriceVal) : pvLE a a = true := by
  cases a with
  | none => rfl
  | some q => simp [pvLE]

theorem pvLE_of_not (a b : PriceVal) (h : pvLE a b = false) : pvLE b a = true := by
  cases a with
  | none => cases b with
    | none => rfl
    | some q => rfl
  | some q => cases b with
    | none => simp [pvLE] at h
    | some p =>
      simp only [pvLE, decide_eq_false_iff_not, not_le] at h
      simp [pvLE, le_of_lt h]

theorem pvLE_ne_of_not (a b : PriceVal) (h : pvLE a b = false) : b ≠ a := by
  intro hEq
  rw [hEq] at h
  rw [pvLE_refl a] at h
  exact absurd h (by decide)

theorem pvLE_trans (a b c : PriceVal) (h₁ : pvLE a b = true) (h₂ : pvLE b c = true) :
    pvLE a c = true := by
  cases a <;> cases b <;> cases c <;> simp_all [pvLE]
  · exact le_trans (by assumption) (by assumption)

theorem mem_insertCar (x : Car) (l : List Car) (a : Car) :
    a ∈ insertCar x l ↔ a = x ∨ a ∈ l := by
  induction l with
  | nil => simp [insertCar]
  | cons y t ih =>
    rw [insertCar]
    split
    · simp
    · rw [List.mem_cons, ih, List.mem_cons]
      tauto

theorem mem_sortCars (l : List Car) (a : Car) : a ∈ sortCars l ↔ a ∈ l := by
  induction l with
  | nil => simp [sortCars]
  | cons x t ih =>
    rw [sortCars, mem_insertCar, ih, List.mem_cons]

theorem insertCar_pairwise (x : Car) (l : List Car)
    (hl : l.Pairwise (fun a b => pvLE (keyOf a) (keyOf b) = true)) :
    (insertCar x l).Pairwise (fun a b => pvLE (keyOf a) (keyOf b) = true) := by
  induction l with
  | nil => simp [insertCar]
  | cons y t ih =>
    rw [insertCar]
    rcases List.pairwise_cons.mp hl with ⟨hy, ht⟩
    split
    · rename_i hle
      refine List.pairwise_cons.mpr ⟨?_, hl⟩
      intro b hb
      rcases List.mem_cons.mp hb with rfl | hb
      · exact hle
      · exact pvLE_trans _ _ _ hle (hy b hb)
    · rename_i hle
      have hyx : pvLE (keyOf y) (keyOf x) = true := by
        cases hxy : pvLE (keyOf x) (keyOf y)
        · exact pvLE_of_not _ _ hxy
        · exact absurd hxy hle
      refine List.pairwise_cons.mpr ⟨?_, ih ht⟩
      intro b hb
      rcases (mem_insertCar x t b).mp hb with rfl | hb
      · exact hyx
      · exact hy b hb


theorem sortCars_pairwise (l : List Car) :
    (sortCars l).Pairwise (fun a b => pvLE (keyOf a) (keyOf b) = true) := by
  induction l with
  | nil => simp [sortCars]
  | cons x t ih => exact insertCar_pairwise x (sortCars t) ih

theorem insertCar_filter (q : PriceVal) (x : Car) (l : List Car) :
    (insertCar x l).filter (fun c => decide (keyOf c = q)) =
      if keyOf x = q then x :: l.filter (fun c => decide (keyOf c = q))
      else l.filter (fun c => decide (keyOf c = q)) := by
  induction l with
  | nil =>
    rw [insertCar]
    by_cases hx : keyOf x = q
    · simp [List.filter, hx]
    · simp [List.filter, hx]
  | cons y t ih =>
    rw [insertCar]
    split
    · rename_i hle
      by_cases hx : keyOf x = q
      · simp [List.filter_cons, hx]
      · simp [List.filter_cons, hx]
    · rename_i hle
      have hf : pvLE (keyOf x) (keyOf y) = false := by
        cases hxy : pvLE (keyOf x) (keyOf y)
        · rfl
        · exact absurd hxy hle
      rw [List.filter_cons, List.filter_cons, ih]
      by_cases hx : keyOf x = q
      · have hyq : keyOf y ≠ q := by
          have hne := pvLE_ne_of_not _ _ hf
          rw [hx] at hne
          exact hne
        simp [hx, hyq]
      · simp [hx]

theorem sortCars_filter (q : PriceVal) (l : List Car) :
    (sortCars l).filter (fun c => decide (keyOf c = q)) =
      l.filter (fun c => decide (keyOf c = q)) := by
  induction l with
  | nil => rfl
  | cons x t ih =>
    rw [sortCars, insertCar_filter, List.filter_cons]
    by_cases hx : keyOf x = q
    · simp [hx, ih]
    · simp [hx, ih]

theorem dget_dset_self (c : Car) (k : String) (v : Val) : dget (dset c k v) k = some v := by
  induction c with
  | nil => simp [dset, dget]
  | cons p t ih =>
    rw [dset]
    split
    · rw [dget, if_pos rfl]
    · rename_i hne
      rw [dget, if_neg hne]
      exact ih

theorem dget_dset_ne (c : Car) (k k' : String) (v : Val) (h : k' ≠ k) :
    dget (dset c k v) k' = dget c k' := by
  induction c with
  | nil =>
    simp only [dset, dget]
    rw [if_neg (fun hEq => h hEq.symm)]
  | cons p t ih =>
    rcases p with ⟨a, b⟩
    rw [dset]
    split
    · rename_i hEq
      subst hEq
      simp only [dget]
      rw [if_neg (fun hk => h hk.symm), if_neg (fun hk => h hk.symm)]
    · simp only [dget]
      split
      · rfl
      · exact ih

theorem dget_stripNP_ne (c : Car) (k : String) (h : k ≠ "numeric_price") :
    dget (stripNP c) k = dget c k := by
  induction c with
  | nil => rfl
  | cons p t ih =>
    rcases p with ⟨k₁, v₁⟩
    rw [stripNP, List.filter_cons]
    by_cases hk₁ : k₁ = "numeric_price"
    · rw [if_neg (by simp [hk₁]), dget, if_neg (by rw [hk₁]; exact fun hEq => h hEq.symm)]
      exact ih
    · rw [if_pos (by simp [hk₁]), dget, dget]
      split
      · rfl
      · exact ih

theorem stripNP_dset_np (c : Car) (v : Val) :
    stripNP (dset c "numeric_price" v) = stripNP c := by
  induction c with
  | nil => simp [dset, stripNP]
  | cons p t ih =>
    rcases p with ⟨a, b⟩
    rw [dset]
    split
    · rename_i hEq
      unfold stripNP
      rw [List.filter_cons, List.filter_cons, if_neg (by simp), if_neg (by simp [hEq])]
    · rename_i hne
      unfold stripNP
      rw [List.filter_cons, List.filter_cons]
      by_cases hk₁ : a = "numeric_price"
      · exact absurd hk₁ hne
      · rw [if_pos (by simp [hk₁]), if_pos (by simp [hk₁])]
        unfold stripNP at ih
        rw [ih]

theorem priceOf_dset_np (c : Car) (v : Val) : priceOf (dset c "numeric_price" v) = priceOf c := by
  unfold priceOf
  rw [dget_dset_ne c "numeric_price" "price" v (by decide)]

theorem priceOf_stripNP (c : Car) : priceOf (stripNP c) = priceOf c := by
  unfold priceOf
  rw [dget_stripNP_ne c "price" (by decide)]

theorem modelStr_stripNP (c : Car) : modelStr (stripNP c) = modelStr c := by
  unfold modelStr
  rw [dget_stripNP_ne c "model" (by decide)]

theorem modelStr_dset_np (c : Car) (v : Val) : modelStr (dset c "numeric_price" v) = modelStr c := by
  unfold modelStr
  rw [dget_dset_ne c "numeric_price" "model" v (by decide)]

theorem keyOf_annotate (c : Car) : keyOf (annotate c) = priceOf c := by
  unfold keyOf annotate
  rw [dget_dset_self]

theorem priceOf_annotate (c : Car) : priceOf (annotate c) = priceOf c :=
  priceOf_dset_np c _

theorem stripNP_annotate (c : Car) : stripNP (annotate c) = stripNP c :=
  stripNP_dset_np c _

theorem modelStr_annotate (c : Car) : modelStr (annotate c) = modelStr c :=
  modelStr_dset_np c _

theorem filterCarsM_ok (f : String) (l l' : List Car) (h : filterCarsM f l = .ok l') :
    l' = l.filter (matchesFilter f) := by
  induction l generalizing l' with
  | nil =>
    rw [filterCarsM] at h
    cases h
    rfl
  | cons c t ih =>
    rw [filterCarsM] at h
    cases hm : getModel c with
    | error e => rw [hm] at h; cases h
    | ok m =>
      rw [hm] at h
      cases hr : filterCarsM f t with
      | error e => rw [hr] at h; cases h
      | ok rest =>
        rw [hr] at h
        have hmf : matchesFilter f c = listContains (pyLower m.data) (pyLower f.data) := by
          have hms : modelStr c = m := by
            unfold getModel at hm
            cases hd : dget c "model" with
            | none => rw [hd] at hm; exact absurd hm (by simp)
            | some v =>
              rw [hd] at hm
              cases v with
              | vs s =>
                have hm' : Except.ok s = Except.ok m := hm
                cases hm'
                unfold modelStr
                rw [hd]
              | vq p => exact absurd hm (by simp)
          unfold matchesFilter
          rw [hms]
        have h' : (if listContains (pyLower m.data) (pyLower f.data) = true
            then Except.ok (c :: rest) else Except.ok rest) = Except.ok l' := h
        by_cases hcond : listContains (pyLower m.data) (pyLower f.data) = true
        · rw [if_pos hcond] at h'
          cases h'
          rw [List.filter_cons, hmf, hcond]
          rw [if_pos rfl, ih _ hr]
        · rw [if_neg hcond] at h'
          cases h'
          rw [List.filter_cons, hmf]
          rw [if_neg hcond, ih _ hr]

theorem processCarsM_ok (l l' : List Car) (h : processCarsM l = .ok l') :
    l' = l.map annotate := by
  induction l generalizing l' with
  | nil =>
    rw [processCarsM] at h
    cases h
    rfl
  | cons c t ih =>
    rw [processCarsM] at h
    cases hp : parsePriceOfCar c with
    | error e => rw [hp] at h; cases h
    | ok p =>
      rw [hp] at h
      cases hr : processCarsM t with
      | error e => rw [hr] at h; cases h
      | ok rest =>
        rw [hr] at h
        have h' : Except.ok (dset c "numeric_price" (.vq p) :: rest) = Except.ok l' := h
        cases h'
        have hpv : p = priceOf c := by
          unfold parsePriceOfCar at hp
          cases hd : dget c "price" with
          | none =>
            rw [hd] at hp
            exact absurd hp (by simp)
          | some v =>
            rw [hd] at hp
            cases v with
            | vs s =>
              have hp' : Except.ok (parse_price s.data) = Except.ok p := hp
              cases hp'
              unfold priceOf
              rw [hd]
            | vq pq =>
              cases pq with
              | none => exact absurd hp (by simp)
              | some q =>
                have hp' : (if q = 0 then Except.ok (none : PriceVal)
                    else Except.error PyErr.other) = Except.ok p := hp
                by_cases hq : q = 0
                · rw [if_pos hq] at hp'
                  cases hp'
                  unfold priceOf
                  rw [hd]
                · rw [if_neg hq] at hp'
                  exact absurd hp' (by simp)
        rw [List.map_cons, ← ih _ hr, hpv]
        rfl

theorem takeIsPre (n : ℕ) (l : List Car) : l.take n <+: l :=
  ⟨l.drop n, List.take_append_drop n l⟩

theorem preFilter (p : Car → Bool) (l₁ l₂ : List Car) (h : l₁ <+: l₂) :
    l₁.filter p <+: l₂.filter p := by
  obtain ⟨t, rfl⟩ := h
  exact ⟨t.filter p, (List.filter_append _ _).symm⟩

theorem preMap (f : Car → Car) (l₁ l₂ : List Car) (h : l₁ <+: l₂) :
    l₁.map f <+: l₂.map f := by
  obtain ⟨t, rfl⟩ := h
  exact ⟨t.map f, (List.map_append _ _ _).symm⟩

theorem mem_stripNP_ne (c : Car) (p : String × Val) (hp : p ∈ stripNP c) :
    p.1 ≠ "numeric_price" := by
  unfold stripNP at hp
  exact of_decide_eq_true (List.mem_filter.mp hp).2

theorem eraseP_stripNP (c : Car) :
    List.eraseP (fun p => p.1 == "numeric_price") (stripNP c) = stripNP c := by
  apply List.eraseP_of_forall_not
  intro a ha
  simp only [beq_eq_false_iff_ne, ne_eq, Bool.not_eq_true]
  exact mem_stripNP_ne c a ha

theorem listContains_nil (hay : List Char) : listContains hay [] = true := by
  cases hay with
  | nil => rfl
  | cons c t =>
    rw [listContains]
    simp [List.isPrefixOf]

theorem gacAfterFilter_ok_cars (mf : Option String) (filtered : List Car) (r : GResult)
    (h : gacAfterFilter mf filtered = .ok r) :
    r.cars = ((sortCars (filtered.map annotate)).take 2).map stripNP := by
  unfold gacAfterFilter at h
  cases hp : processCarsM filtered with
  | error e => rw [hp] at h; exact absurd h (by simp)
  | ok processed =>
    rw [hp] at h
    have hproc := processCarsM_ok filtered processed hp
    subst hproc
    have h' : (if (gacFinal (filtered.map annotate)).isEmpty = true
        then Except.ok (GResult.mk (gacSummaryEmpty mf) [])
        else Except.ok (GResult.mk (gacSummarySome mf)
          ((gacFinal (filtered.map annotate)).map
            (List.eraseP (fun p => p.1 == "numeric_price"))))) = Except.ok r := h
    by_cases hE : (gacFinal (filtered.map annotate)).isEmpty = true
    · rw [if_pos hE] at h'
      cases h'
      have hnil : gacFinal (filtered.map annotate) = [] := by
        cases hl : gacFinal (filtered.map annotate)
        · rfl
        · rw [hl] at hE; simp at hE
      exact hnil.symm
    · rw [if_neg hE] at h'
      cases h'
      show (gacFinal (filtered.map annotate)).map (List.eraseP (fun p => p.1 == "numeric_price"))
          = ((sortCars (filtered.map annotate)).take 2).map stripNP
      unfold gacFinal
      rw [List.map_map]
      apply List.map_congr_left
      intro a _
      exact eraseP_stripNP a

theorem gac_core_ok_cars (mf : Option String) (cars : List Car) (r : GResult)
    (h : gac_core mf cars = .ok r) :
    r.cars = ((sortCars ((feedFiltered mf cars).map annotate)).take 2).map stripNP := by
  unfold gac_core at h
  unfold feedFiltered
  cases htf : truthyFilter mf with
  | none =>
    rw [htf] at h
    exact gacAfterFilter_ok_cars mf cars r h
  | some f =>
    rw [htf] at h
    have h₀ : (match filterCarsM f cars with
      | Except.error e => Except.error e
      | Except.ok filtered => gacAfterFilter mf filtered) = Except.ok r := h
    cases hf : filterCarsM f cars with
    | error e =>
      rw [hf] at h₀
      exact absurd h₀ (by simp)
    | ok filtered =>
      rw [hf] at h₀
      have h₁ : gacAfterFilter mf filtered = .ok r := h₀
      show r.cars = ((sortCars ((cars.filter (matchesFilter f)).map annotate)).take 2).map stripNP
      rw [← filterCarsM_ok f cars filtered hf]
      exact gacAfterFilter_ok_cars mf filtered r h₁


/-! ## Polling-loop lemmas -/

theorem pollLoop_stays_inprogress (env : ChatEnv)
    (hr : ∀ i, i < 30 → (env.retrieve i).status = "in_progress") :
    ∀ fuel s st, st.iter + fuel = 30 → nonterminal s = true →
      pollLoop env fuel s st =
        .ok ((if fuel = 0 then s else "in_progress"), { st with iter := 30 }) := by
  intro fuel
  induction fuel with
  | zero =>
    intro s st hiter hs
    have hst : ({ st with iter := 30 } : LoopState) = st := by
      cases st
      simp_all
    simp [pollLoop, hst]
  | succ n ih =>
    intro s st hiter hs
    have hlt : st.iter < 30 := by omega
    have hrv : (env.retrieve st.iter).status = "in_progress" := hr st.iter hlt
    have hne : ((env.retrieve st.iter).status == "requires_action") = false := by
      rw [hrv]
      decide
    simp only [pollLoop, hs, hne, if_true, Bool.false_eq_true, if_false]
    rw [hrv]
    rw [ih "in_progress" { st with iter := st.iter + 1 } (by simp; omega) (by decide)]
    simp [ite_self]


theorem mem_itemCar_ne (it : Item) (p : String × Val) (hp : p ∈ itemCar it) :
    p.1 ≠ "numeric_price" := by
  simp only [itemCar, List.mem_cons, List.not_mem_nil, or_false] at hp
  rcases hp with rfl | rfl | rfl | rfl <;> simp

theorem gac_core_no_np (mf : Option String) (cars : List Car) (r : GResult)
    (h : gac_core mf cars = .ok r) :
    ∀ c ∈ r.cars, ∀ p ∈ c, p.1 ≠ "numeric_price" := by
  intro c hc p hp
  rw [gac_core_ok_cars mf cars r h] at hc
  obtain ⟨x, _, rfl⟩ := List.mem_map.mp hc
  exact mem_stripNP_ne x p hp

/-! ## The claims -/

/-- C3: for every price text consisting of a prefix without the `лв` marker
and not ending in a `[\d\s,]`-character, followed by a non-empty numeric run
of digits, grouping spaces and one decimal comma, followed by the `лв`
marker, `parse_price` returns exactly the value obtained by locating that
run, stripping the spaces and reading the comma as a decimal point
(e.g. `"35 858,96 € / 70 134,03 лв."` parses to `70134.03`). -/
theorem parse_price_bgn_correct (pre tok post d₁ d₂ : List Char)
    (htok : ∀ c ∈ tok, isClassChar c = true) (hne : tok ≠ [])
    (hpre_lv : hasLv pre = false)
    (hlast : pre = [] ∨ ∃ p₂ d, pre = p₂ ++ [d] ∧ isClassChar d = false)
    (hfilter : tok.filter (fun c => c ≠ ' ') = d₁ ++ ',' :: d₂)
    (hd₁ : ∀ c ∈ d₁, c.isDigit = true) (hd₂ : ∀ c ∈ d₂, c.isDigit = true)
    (hdig : d₁ ++ d₂ ≠ []) :
    parse_price (pre ++ (tok ++ 'л' :: 'в' :: post)) = some (decValue d₁ d₂) := by
  have hs := searchLv_pre pre tok post hpre_lv hlast hne htok
  have hnil : pre ++ (tok ++ 'л' :: 'в' :: post) ≠ [] := by
    intro h
    rw [h] at hs
    simp [searchLv] at hs
  have hE : (pre ++ (tok ++ 'л' :: 'в' :: post)).isEmpty = false := by
    cases hl : pre ++ (tok ++ 'л' :: 'в' :: post)
    · exact absurd hl hnil
    · rfl
  have hclean : cleanRun tok = d₁ ++ '.' :: d₂ := by
    unfold cleanRun
    rw [hfilter, List.map_append, List.map_cons,
      mapComma_digits d₁ hd₁, mapComma_digits d₂ hd₂]
    simp
  unfold parse_price
  rw [hE]
  simp only [Bool.false_eq_true, if_false]
  rw [hs]
  show pyFloat (cleanRun tok) = some (decValue d₁ d₂)
  rw [hclean]
  exact pyFloat_decimal d₁ d₂ hd₁ hd₂ hdig

theorem parse_price_bgn_witness :
    parse_price ("35 858,96 € / 70 134,03 лв.".data) = some (mkRat 7013403 100) := by
  have hdec : "35 858,96 € / 70 134,03 лв.".data =
      "35 858,96 € /".data ++ (" 70 134,03 ".data ++ 'л' :: 'в' :: ".".data) := by decide
  rw [hdec]
  rw [parse_price_bgn_correct "35 858,96 € /".data " 70 134,03 ".data ".".data
    "70134".data "03".data
    (by decide) (by decide) (by decide)
    (Or.inr ⟨"35 858,96 € ".data, '/', by decide, by decide⟩)
    (by decide) (by decide) (by decide) (by decide)]
  decide

/-- C4: for every input on which the BGN regex does not match (no `лв`-marked
numeric run) or on which the cleaned numeric token does not parse as a
float, `parse_price` returns positive infinity (`none`); it is a total
function, so no exception can propagate. -/
theorem parse_price_inf_on_failure (l : List Char)
    (h : searchLv l = none ∨ ∃ run, searchLv l = some run ∧ pyFloat (cleanRun run) = none) :
    parse_price l = none := by
  by_cases he : l.isEmpty
  · simp [parse_price, he]
  · rcases h with h | ⟨run, h₁, h₂⟩
    · simp [parse_price, he, h]
    · simp [parse_price, he, h₁, h₂]

theorem parse_price_inf_witness :
    parse_price ("В момента не можем да посочим цена.".data) = none :=
  parse_price_inf_on_failure _ (Or.inl (by decide))

/-- C1: for every catalog snapshot (any cache state and upstream outcome)
and every optional model filter, `get_available_cars` returns at most 2
listings, sorted ascending by the price parsed from each listing's price
text (`inf` last, all `inf`s tied), stable on ties — the listings of any
given parsed price appear as a prefix of the filtered feed's listings of
that price, in feed order — and, when a filter is given, every returned
listing's model name contains the filter as a case-insensitive substring. -/
theorem get_available_cars_top2 (mf : Option String) (st : CacheState) (now : ℤ)
    (up : Upstream) :
    (get_available_cars mf st now up).1.cars.length ≤ 2 ∧
    (get_available_cars mf st now up).1.cars.Pairwise
      (fun a b => pvLE (priceOf a) (priceOf b) = true) ∧
    (∀ q : PriceVal,
      (get_available_cars mf st now up).1.cars.filter (fun c => decide (priceOf c = q)) <+:
        ((feedFiltered mf (servedCars st now up)).map stripNP).filter
          (fun c => decide (priceOf c = q))) ∧
    (∀ f, mf = some f → ∀ c ∈ (get_available_cars mf st now up).1.cars,
      listContains (pyLower (modelStr c).data) (pyLower f.data) = true) := by
  rcases hf : fetch_all_cars st now up with ⟨fr, st₁, n⟩
  cases fr with
  | error e =>
    have hG : (get_available_cars mf st now up).1 = GResult.mk (errMsg e) [] := by
      unfold get_available_cars
      rw [hf]
    rw [hG]
    exact ⟨by simp, by simp, fun q => by simp, fun f _ c hc => by simp at hc⟩
  | ok cars =>
    have hserved : servedCars st now up = cars := by
      unfold servedCars
      rw [hf]
    cases hg : gac_core mf cars with
    | error e =>
      have hG : (get_available_cars mf st now up).1 = GResult.mk (errMsg e) [] := by
        unfold get_available_cars
        rw [hf]
        show (match gac_core mf cars with
          | Except.ok r => (r, st₁, n)
          | Except.error e => (GResult.mk (errMsg e) [], st₁, n)).1 = GResult.mk (errMsg e) []
        rw [hg]
      rw [hG]
      exact ⟨by simp, by simp, fun q => by simp, fun f _ c hc => by simp at hc⟩
    | ok r =>
      have hG : (get_available_cars mf st now up).1 = r := by
        unfold get_available_cars
        rw [hf]
        show (match gac_core mf cars with
          | Except.ok r => (r, st₁, n)
          | Except.error e => (GResult.mk (errMsg e) [], st₁, n)).1 = r
        rw [hg]
      rw [hG, hserved]
      have hcars := gac_core_ok_cars mf cars r hg
      have hkey : ∀ x ∈ (feedFiltered mf cars).map annotate, keyOf x = priceOf x := by
        intro x hx
        obtain ⟨c₀, _, rfl⟩ := List.mem_map.mp hx
        rw [keyOf_annotate, priceOf_annotate]
      refine ⟨?_, ?_, ?_, ?_⟩
      · rw [hcars, List.length_map, List.length_take]
        exact min_le_left _ _
      · rw [hcars, List.pairwise_map]
        have hP : (sortCars ((feedFiltered mf cars).map annotate)).Pairwise
            (fun a b => pvLE (keyOf a) (keyOf b) = true) := sortCars_pairwise _
        have hP2 : (sortCars ((feedFiltered mf cars).map annotate)).Pairwise
            (fun a b => pvLE (priceOf (stripNP a)) (priceOf (stripNP b)) = true) := by
          refine List.Pairwise.imp_of_mem ?_ hP
          intro a b ha hb hab
          rw [priceOf_stripNP, priceOf_stripNP,
            ← hkey a ((mem_sortCars _ _).mp ha), ← hkey b ((mem_sortCars _ _).mp hb)]
          exact hab
        exact List.Pairwise.sublist (List.take_sublist 2 _) hP2
      · intro q
        rw [hcars]
        have hcomp : ((fun c => decide (priceOf c = q)) ∘ stripNP)
            = (fun c => decide (priceOf c = q)) := by
          funext c
          simp [Function.comp, priceOf_stripNP]
        have hcompA : ((fun c => decide (priceOf c = q)) ∘ annotate)
            = (fun c => decide (priceOf c = q)) := by
          funext c
          simp [Function.comp, priceOf_annotate]
        rw [List.filter_map, hcomp, List.filter_map, hcomp]
        have hstep := preMap stripNP _ _ (preFilter (fun c => decide (priceOf c = q)) _ _
          (takeIsPre 2 (sortCars ((feedFiltered mf cars).map annotate))))
        have hfinal : ((sortCars ((feedFiltered mf cars).map annotate)).filter
              (fun c => decide (priceOf c = q))).map stripNP
            = ((feedFiltered mf cars).filter (fun c => decide (priceOf c = q))).map stripNP := by
          have hkeyL : ∀ x ∈ sortCars ((feedFiltered mf cars).map annotate),
              decide (priceOf x = q) = decide (keyOf x = q) := by
            intro x hx
            rw [hkey x ((mem_sortCars _ _).mp hx)]
          have hkeyP : ∀ x ∈ (feedFiltered mf cars).map annotate,
              decide (priceOf x = q) = decide (keyOf x = q) := by
            intro x hx
            rw [hkey x hx]
          rw [List.filter_congr hkeyL, sortCars_filter q, ← List.filter_congr hkeyP,
            List.filter_map, hcompA, List.map_map]
          apply List.map_congr_left
          intro a _
          simp only [Function.comp_apply]
          exact stripNP_annotate a
        exact hfinal ▸ hstep
      · intro f hmf c hc
        rw [hcars] at hc
        obtain ⟨x, hx, rfl⟩ := List.mem_map.mp hc
        have hxL : x ∈ sortCars ((feedFiltered mf cars).map annotate) := by
          obtain ⟨t, ht⟩ := takeIsPre 2 (sortCars ((feedFiltered mf cars).map annotate))
          rw [← ht]
          exact List.mem_append_left t hx
        obtain ⟨c₀, hc₀, rfl⟩ := List.mem_map.mp ((mem_sortCars _ _).mp hxL)
        rw [modelStr_stripNP, modelStr_annotate]
        subst hmf
        by_cases hf0 : f = ""
        · rw [hf0]
          exact listContains_nil _
        · have htf : truthyFilter (some f) = some f := by
            show (if f = "" then none else some f) = some f
            rw [if_neg hf0]
          unfold feedFiltered at hc₀
          rw [htf] at hc₀
          have := List.mem_filter.mp hc₀
          unfold matchesFilter at this
          exact this.2

theorem get_available_cars_top2_witness :
    listContains (pyLower (modelStr (itemCar demoItem₂)).data) (pyLower "208".data) = true :=
  (get_available_cars_top2 (some "208")
      ⟨0, [itemCar demoItem₁, itemCar demoItem₂, itemCar demoItem₃]⟩ 5 .netError).2.2.2
    "208" rfl (itemCar demoItem₂) (by decide)

/-- C2 (counterexample): the claim "calling `fetch_all_cars` twice within
the same TTL window performs exactly one upstream fetch" fails on the code
as stated: starting from an empty cache, with an upstream feed that yields
no in-stock items, two calls at times 0 and 1 (within one TTL window,
`1 - 0 < 300`) each perform an upstream fetch, because the cache-hit test
`if CAR_CACHE["cars"] and ...` treats a stored empty list as absent. -/
theorem fetch_cache_counterexample :
    ((⟨0, []⟩ : CacheState).cars = [] ∨ ¬ ((0:ℤ) - 0 < 300)) ∧
    (1:ℤ) - 0 < 300 ∧
    (fetch_all_cars ⟨0, []⟩ 0 (.items [])).2.1 = ⟨0, []⟩ ∧
    (fetch_all_cars ⟨0, []⟩ 0 (.items [])).2.2 +
      (fetch_all_cars (fetch_all_cars ⟨0, []⟩ 0 (.items [])).2.1 1 (.items [])).2.2 = 2 := by
  refine ⟨Or.inl rfl, by decide, by decide, by decide⟩

/-- C2 (amended): starting from a cache miss (empty or expired cache), a
call that fetches a non-empty car list performs exactly one upstream fetch;
a second call within the TTL window (difference < 300) performs no fetch
and returns the cached snapshot unchanged; a call at or past TTL expiry
performs a second upstream fetch. -/
theorem fetch_cache_amended (st : CacheState) (now₁ now₂ now₃ : ℤ) (its : List Item)
    (up₂ up₃ : Upstream)
    (hmiss : st.cars = [] ∨ ¬ (now₁ - st.timestamp < 300))
    (hne : buildCars its ≠ [])
    (hfresh : now₂ - now₁ < 300)
    (hexp : ¬ (now₃ - now₁ < 300)) :
    (fetch_all_cars st now₁ (.items its)).2.2 = 1 ∧
    (fetch_all_cars (fetch_all_cars st now₁ (.items its)).2.1 now₂ up₂).2.2 = 0 ∧
    (fetch_all_cars (fetch_all_cars st now₁ (.items its)).2.1 now₂ up₂).1 =
      .ok (buildCars its) ∧
    (fetch_all_cars (fetch_all_cars st now₁ (.items its)).2.1 now₂ up₂).2.1 =
      (fetch_all_cars st now₁ (.items its)).2.1 ∧
    (fetch_all_cars (fetch_all_cars st now₁ (.items its)).2.1 now₃ up₃).2.2 = 1 := by
  have hc : ¬ (st.cars ≠ [] ∧ now₁ - st.timestamp < 300) := by
    rcases hmiss with h | h
    · exact fun hh => hh.1 h
    · exact fun hh => h hh.2
  have h1 : fetch_all_cars st now₁ (.items its) =
      (.ok (buildCars its), ⟨now₁, buildCars its⟩, 1) := by
    unfold fetch_all_cars
    rw [if_neg hc]
  rw [h1]
  have h2 : fetch_all_cars ⟨now₁, buildCars its⟩ now₂ up₂ =
      (.ok (buildCars its), ⟨now₁, buildCars its⟩, 0) := by
    unfold fetch_all_cars
    rw [if_pos ⟨hne, hfresh⟩]
  have hc3 : ¬ ((⟨now₁, buildCars its⟩ : CacheState).cars ≠ [] ∧
      now₃ - (⟨now₁, buildCars its⟩ : CacheState).timestamp < 300) :=
    fun hh => hexp hh.2
  refine ⟨rfl, ?_, ?_, ?_, ?_⟩
  · rw [h2]
  · rw [h2]
  · rw [h2]
  · unfold fetch_all_cars
    rw [if_neg hc3]
    cases up₃ <;> rfl

theorem fetch_cache_amended_witness :
    ((⟨0, []⟩ : CacheState).cars = [] ∨ ¬ ((10:ℤ) - 0 < 300)) ∧
    buildCars [demoItem₁] ≠ [] ∧ (100:ℤ) - 10 < 300 ∧ ¬ ((400:ℤ) - 10 < 300) ∧
    (fetch_all_cars ⟨0, []⟩ 10 (.items [demoItem₁])).2.2 = 1 ∧
    (fetch_all_cars (fetch_all_cars ⟨0, []⟩ 10 (.items [demoItem₁])).2.1 100 .netError).2.2 = 0 ∧
    (fetch_all_cars (fetch_all_cars ⟨0, []⟩ 10 (.items [demoItem₁])).2.1 400 .netError).2.2 = 1 := by
  have h := fetch_cache_amended ⟨0, []⟩ 10 100 400 [demoItem₁] .netError .netError
    (Or.inl rfl) (by decide) (by decide) (by decide)
  exact ⟨Or.inl rfl, by decide, by decide, by decide, h.1, h.2.1, h.2.2.2.2⟩

/-- C7: when the cache misses (empty or expired) and the upstream fetch
raises a network error or an XML parse error, `get_available_cars` returns
a result with an empty listing list and a user-facing summary specific to
the error kind; the two messages are distinct, and the error value itself
is never propagated (the function is total). -/
theorem get_available_cars_fetch_errors (mf : Option String) (st : CacheState) (now : ℤ)
    (hmiss : st.cars = [] ∨ ¬ (now - st.timestamp < 300)) :
    (get_available_cars mf st now .netError).1 = { summary := errMsg .net, cars := [] } ∧
    (get_available_cars mf st now .xmlError).1 = { summary := errMsg .xml, cars := [] } ∧
    errMsg .net ≠ errMsg .xml := by
  have hc : ¬ (st.cars ≠ [] ∧ now - st.timestamp < 300) := by
    rcases hmiss with h | h
    · exact fun hh => hh.1 h
    · exact fun hh => h hh.2
  refine ⟨?_, ?_, by decide⟩ <;> simp [get_available_cars, fetch_all_cars, hc]

theorem get_available_cars_fetch_errors_witness :
    ((⟨0, []⟩ : CacheState).cars = [] ∨ ¬ ((5:ℤ) - 0 < 300)) ∧
    (get_available_cars (some "208") ⟨0, []⟩ 5 .netError).1 =
      { summary := errMsg .net, cars := [] } :=
  ⟨Or.inl rfl, (get_available_cars_fetch_errors (some "208") ⟨0, []⟩ 5 (Or.inl rfl)).1⟩

/-- C10: `get_available_cars` is total at its public interface: whenever any
part of the fetch/parse/rank pipeline raises — network error, XML parse
error, or any other exception (`KeyError`, `AttributeError`, `TypeError`
from malformed data, modelled by `PyErr.other`) — the function catches it
and returns a result dict with the corresponding summary string and an
empty cars list; no exception reaches the caller. -/
theorem get_available_cars_total (mf : Option String) (st : CacheState) (now : ℤ)
    (up : Upstream) (e : PyErr) (h : pipelineExc mf st now up = some e) :
    (get_available_cars mf st now up).1 = { summary := errMsg e, cars := [] } := by
  unfold pipelineExc at h
  unfold get_available_cars
  rcases hf : fetch_all_cars st now up with ⟨fr, st₁, n⟩
  rw [hf] at h
  cases fr with
  | error e' => simp at h; simp [h]
  | ok cars =>
    simp only at h
    cases hg : gac_core mf cars with
    | error e' => rw [hg] at h; simp at h; simp [hg, h]
    | ok r => rw [hg] at h; simp at h

theorem get_available_cars_total_witness :
    pipelineExc none ⟨0, []⟩ 0 .otherError = some .other ∧
    (get_available_cars none ⟨0, []⟩ 0 .otherError).1 =
      { summary := errMsg .other, cars := [] } :=
  ⟨by decide, get_available_cars_total none ⟨0, []⟩ 0 .otherError .other (by decide)⟩

/-- C9: the rank key is never persisted: when the cache is fresh the call
leaves the cache state completely unchanged (the key is written only onto
per-query copies); every listing in the returned result carries no
`numeric_price` binding; and after any call, every listing held in the
cache is either one of the previously cached listing values (unchanged) or
a freshly built feed listing, which carries no `numeric_price` binding. -/
theorem get_available_cars_frame (mf : Option String) (st : CacheState) (now : ℤ)
    (up : Upstream) :
    ((st.cars ≠ [] ∧ now - st.timestamp < 300) →
      (get_available_cars mf st now up).2.1 = st) ∧
    (∀ c ∈ (get_available_cars mf st now up).1.cars, ∀ p ∈ c, p.1 ≠ "numeric_price") ∧
    (∀ c ∈ (get_available_cars mf st now up).2.1.cars,
      c ∈ st.cars ∨ ∀ p ∈ c, p.1 ≠ "numeric_price") := by
  refine ⟨?_, ?_, ?_⟩
  · intro hfresh
    unfold get_available_cars fetch_all_cars
    rw [if_pos hfresh]
    cases hg : gac_core mf st.cars <;> simp [hg]
  · unfold get_available_cars
    rcases hf : fetch_all_cars st now up with ⟨fr, st₁, n⟩
    cases fr with
    | error e => simp
    | ok cars =>
      cases hg : gac_core mf cars with
      | error e => simp [hg]
      | ok r =>
        have h2 := gac_core_no_np mf cars r hg
        simp only [hg]
        intro c hc p hp
        exact h2 c hc p hp
  · unfold get_available_cars fetch_all_cars
    by_cases hfresh : st.cars ≠ [] ∧ now - st.timestamp < 300
    · rw [if_pos hfresh]
      cases hg : gac_core mf st.cars <;> simp [hg] <;> exact fun c hc => Or.inl hc
    · rw [if_neg hfresh]
      cases up with
      | netError => exact fun c hc => Or.inl hc
      | xmlError => exact fun c hc => Or.inl hc
      | otherError => exact fun c hc => Or.inl hc
      | items its =>
        cases hg : gac_core mf (buildCars its) <;> simp only [hg] <;>
        · intro c hc
          refine Or.inr ?_
          unfold buildCars at hc
          simp only [List.mem_map] at hc
          obtain ⟨it, _, rfl⟩ := hc
          exact fun p hp => mem_itemCar_ne it p hp

theorem get_available_cars_frame_witness :
    ((⟨0, [itemCar demoItem₁]⟩ : CacheState).cars ≠ [] ∧ (5:ℤ) - 0 < 300) ∧
    (get_available_cars none ⟨0, [itemCar demoItem₁]⟩ 5 .netError).2.1 =
      ⟨0, [itemCar demoItem₁]⟩ :=
  ⟨⟨by decide, by decide⟩,
   (get_available_cars_frame none ⟨0, [itemCar demoItem₁]⟩ 5 .netError).1
     ⟨by decide, by decide⟩⟩

/-- C5: in every turn the orchestrator inserts exactly one user-message row
and at most one assistant-message row; and when the run completes with a
tool result holding a non-empty listing list, the single assistant row (and
the returned response) is the inventory summary, not the raw assistant
completion text — regardless of how many tool-call round-trips occurred. -/

theorem chat_transcript_appends (env : ChatEnv) :
    ((chat env).userAppends = 1 ∧ (chat env).assistantAppends.length ≤ 1) ∧
    (∀ stf r,
      pollLoop env 30 env.initStatus
          { carData := none, cache := env.cache0, gacCalls := 0, submits := 0, iter := 0 } =
        .ok ("completed", stf) →
      stf.carData = some r → r.cars ≠ [] →
      (chat env).assistantAppends = [r.summary] ∧ (chat env).response = r.summary) := by
  constructor
  · unfold chat
    split
    · exact ⟨rfl, by simp⟩
    · split
      · exact ⟨rfl, by simp⟩
      · split
        · exact ⟨rfl, by simp⟩
        · exact ⟨rfl, by simp⟩
  · intro stf r hp hcd hne
    have hcE : r.cars.isEmpty = false := by
      cases hr : r.cars
      · exact absurd hr hne
      · rfl
    unfold chat
    rw [hp]
    simp only [hcd, hcE, beq_self_eq_true, if_true, Bool.false_eq_true, if_false]
    refine ⟨?_, ?_⟩ <;> first | rfl | trivial

theorem chat_transcript_appends_witness :
    (chat (oneCallEnv (.ok none) [demoItem₁] "raw")).assistantAppends = [someMsg] ∧
    (chat (oneCallEnv (.ok none) [demoItem₁] "raw")).response = someMsg :=
  (chat_transcript_appends (oneCallEnv (.ok none) [demoItem₁] "raw")).2
    ⟨some ⟨someMsg, [itemCar demoItem₁]⟩, ⟨0, [itemCar demoItem₁]⟩, 1, 1, 2⟩
    ⟨someMsg, [itemCar demoItem₁]⟩
    (by rfl) (by rfl) (by simp)

/-- C6: for every turn whose run stays `in_progress` through all 30 polls,
`chat` returns the "stalled" message embedding the last observed status and
the iteration count, appends no assistant-message row, and that message is
distinct from every possible Failed-outcome message. -/
theorem chat_stalled_outcome (env : ChatEnv)
    (hinit : nonterminal env.initStatus = true)
    (hr : ∀ i, i < 30 → (env.retrieve i).status = "in_progress") :
    (chat env).response = stalledMsg "in_progress" 30 ∧
    (chat env).assistantAppends = [] ∧
    listContains (chat env).response.data "in_progress".data = true ∧
    (∀ le, stalledMsg "in_progress" 30 ≠ failedMsg le) := by
  have hloop := pollLoop_stays_inprogress env hr 30
    env.initStatus { carData := none, cache := env.cache0, gacCalls := 0, submits := 0, iter := 0 }
    (by simp) hinit
  rw [if_neg (by decide : (30:ℕ) ≠ 0)] at hloop
  have hchat : chat env = ChatResult.mk (stalledMsg "in_progress" 30) 1 [] false none 0 0 := by
    unfold chat
    rw [hloop]
    rfl
  refine ⟨by rw [hchat], by rw [hchat], by rw [hchat]; decide, ?_⟩
  intro le h
  have hd := congrArg (fun s : String => s.data.take 21) h
  simp only [failedMsg, String.data_append] at hd
  rw [List.take_append_of_le_length (by decide)] at hd
  revert hd
  decide

theorem chat_stalled_outcome_witness :
    (chat stallEnv).response = stalledMsg "in_progress" 30 ∧
    (chat stallEnv).assistantAppends = [] :=
  ⟨(chat_stalled_outcome stallEnv (by decide) (fun i _ => rfl)).1,
   (chat_stalled_outcome stallEnv (by decide) (fun i _ => rfl)).2.1⟩

/-- C8 (counterexample): the claim "any malformed or missing model-filter
payload is treated as no filter rather than failing the turn" fails on the
code: a tool call whose argument payload is malformed JSON makes
`json.loads` raise, the exception reaches the outer handler, the turn ends
in the generic 500 server-error outcome, and the inventory query never
runs. -/
theorem chat_tool_args_counterexample :
    (chat (oneCallEnv .malformed [demoItem₁] "raw")).isError500 = true ∧
    (chat (oneCallEnv .malformed [demoItem₁] "raw")).gacCalls = 0 ∧
    (chat (oneCallEnv .malformed [demoItem₁] "raw")).assistantAppends = [] := by
  refine ⟨by decide, by decide, by decide⟩

/-- C8 (amended): the orchestrator decodes the JSON payload into an
optional model-filter field; a payload whose field is missing or `null`
(and any payload that decodes to an optional string) runs the inventory
query — exactly one engine call and one tool-output submission, no server
error; a payload on which decoding raises is not tolerated: the turn fails
through the generic 500 error path with no inventory query executed. -/
theorem chat_tool_args_amended (a : ToolArgs) (its : List Item) (ftext : String) :
    (∀ mf, a = .ok mf →
      (chat (oneCallEnv a its ftext)).gacCalls = 1 ∧
      (chat (oneCallEnv a its ftext)).submits = 1 ∧
      (chat (oneCallEnv a its ftext)).isError500 = false) ∧
    (a = .malformed →
      (chat (oneCallEnv a its ftext)).isError500 = true ∧
      (chat (oneCallEnv a its ftext)).gacCalls = 0 ∧
      (chat (oneCallEnv a its ftext)).assistantAppends = []) := by
  constructor
  · rintro mf rfl
    exact ⟨rfl, rfl, rfl⟩
  · rintro rfl
    exact ⟨rfl, rfl, rfl⟩

theorem chat_tool_args_amended_witness :
    (chat (oneCallEnv (.ok none) [] "t")).gacCalls = 1 ∧
    (chat (oneCallEnv (.ok none) [] "t")).submits = 1 ∧
    (chat (oneCallEnv (.ok none) [] "t")).isError500 = false :=
  (chat_tool_args_amended (.ok none) [] "t").1 none rfl
